import Mathlib

/-!
The redis-proxy program, a read-through caching proxy.

Shallow embedding of `main.go` (`Proxy.ServeHTTP`, `Proxy.CacheGet`,
`Proxy.RedisGet`, the construction of the cache in `main`).

Conventions of the embedding.

* Go strings are Lean strings; `len` is the byte length.
* Go `int64` / `time.Duration` values are integers; the one arithmetic
  operation of the program, `time.Duration(CacheTime) * time.Second`, wraps
  modulo `2^64` as Go's signed multiplication does.
* Instants are integers (nanoseconds, as `UnixNano`).  The program reads the
  clock inside `item.Expired()` and inside `Cache.Set`; the two readings are
  the parameters `now` and `setAt` of `CacheGet`.
* The heap objects behind `p.Cache` and the response writer are passed
  explicitly: every method returns the new cache / writer.
* Each method returns the list of effects it performed (`Event`), in order,
  so that "no backing-store call" and "no cache insert" are statements about
  that list.
* The backing Redis is, for one call, a function from keys to the result of
  `Client.Get(ctx, key).Result()`.
-/

set_option linter.dupNamespace false

namespace RedisProxy

/-! ## Go runtime values -/

/-- An error value produced by the Redis client (`redis.Nil`, a network error, a timeout). -/
structure RedisError where
  msg : String
  deriving DecidableEq, Repr

/-- A Go `error` value, by origin: made by `fmt.Errorf` in this program, or the value
handed back by the Redis client (the very same value, the constructor is the
conversion to the `error` interface). -/
inductive Error where
  | errorf (msg : String)
  | redis (e : RedisError)
  deriving DecidableEq, Repr

/-- The method `Error()` of a Go error: its message text. -/
def Error.Error : Error → String
  | .errorf m => m
  | .redis e => e.msg

/-- A value stored in the cache, of Go type `interface{}`: a string, or a value of
another dynamic type (named by what `%T` prints). -/
inductive Value where
  | str (s : String)
  | other (typeName : String)
  deriving DecidableEq, Repr

/-- Go `len(s)` of a string: its length in bytes. -/
def len (s : String) : Nat := s.utf8ByteSize

/-- Go `strings.TrimLeft(s, cutset)`: `s` without its leading characters that occur in `cutset`. -/
def strings.TrimLeft (s cutset : String) : String :=
  String.mk (s.data.dropWhile (fun c => cutset.data.contains c))

/-- The wrap-around of a mathematical integer to a signed 64-bit integer. -/
def wrapInt64 (x : Int) : Int := (x + 2 ^ 63) % 2 ^ 64 - 2 ^ 63

/-- Go `time.Second`, a `time.Duration` (nanoseconds). -/
def time.Second : Int := 1000000000

/-- Go `time.Duration(n) * time.Second` for an `int64` n: a signed 64-bit product. -/
def time.seconds (n : Int) : Int := wrapInt64 (n * time.Second)

/-! ## The cache layer (`ccache`) -/

/-- Modelled from the spec: the cache entry of the cache library
`github.com/karlseguin/ccache`, whose source is not part of the repository
(spec section 3, CacheEntry: key, value, insertedAt, ttl; recency is the position
in the cache's list). -/
structure Item where
  key : String
  value : Value
  insertedAt : Int
  ttl : Int
  deriving DecidableEq, Repr

/-- Modelled from the spec: `Item.Expired()` of the cache library, read at instant `now`
(spec section 4.1: "expired = now >= insertedAt + ttl"). -/
def Item.Expired (it : Item) (now : Int) : Bool := decide (now ≥ it.insertedAt + it.ttl)

/-- Modelled from the spec: the cache of the cache library (spec section 4.1), a bounded
store with recency order; `items` lists the entries from the most recently used
to the least recently used. -/
structure Cache where
  maxSize : Int
  items : List Item
  deriving DecidableEq, Repr

/-- Modelled from the spec: `ccache.New(ccache.Configure().MaxSize(n))`, an empty cache of capacity n. -/
def Cache.New (n : Int) : Cache := { maxSize := n, items := [] }

/-- The entry stored under `key`, if any; the cache is not touched (a read of the model, not
an operation of the library). -/
def Cache.peek (c : Cache) (key : String) : Option Item :=
  c.items.find? (fun it => it.key == key)

/-- Modelled from the spec: `Cache.Get(key)` of the cache library (spec section 4.1): the entry
if present, whatever its expiry state, and `none` (Go `nil`) if absent; a successful
lookup makes the entry the most recently used. -/
def Cache.Get (c : Cache) (key : String) : Option Item × Cache :=
  match c.peek key with
  | none => (none, c)
  | some it => (some it, { c with items := it :: c.items.filter (fun x => x.key != key) })

/-- Modelled from the spec: `Cache.Set(key, value, ttl)` of the cache library, executed at
instant `now` (spec section 4.1): inserts or overwrites the entry for `key`, resets
`insertedAt` to now, makes it the most recently used; if the cache is at capacity and
`key` is new, the least recently used entry is evicted before the insertion. -/
def Cache.Set (c : Cache) (key : String) (value : Value) (ttl : Int) (now : Int) : Cache :=
  let fresh : Item := { key := key, value := value, insertedAt := now, ttl := ttl }
  match c.peek key with
  | some _ => { c with items := fresh :: c.items.filter (fun x => x.key != key) }
  | none =>
    let kept := if (c.items.length : Int) ≥ c.maxSize then c.items.dropLast else c.items
    { c with items := fresh :: kept }

/-! ## The proxy -/

/-- The struct `Config` of `main.go`. -/
structure Config where
  RedisAddr : String
  CacheTime : Int
  CacheSize : Int
  Port : String
  deriving DecidableEq, Repr

/-- The Redis client `*redis.Client` as the program uses it: the answer of
`Client.Get(ctx, key).Result()` for each key. -/
structure Client where
  get : String → Except RedisError String

/-- The struct `Proxy` of `main.go`; a Go `nil` pointer is `none`. -/
structure Proxy where
  Config : Config
  Client : Option Client
  Cache : Option Cache

/-- An effect of the program on its collaborators. -/
inductive Event where
  | cacheGet (key : String)
  | cacheSet (key : String) (val : String) (ttl : Int)
  | redisGet (key : String)
  | clientGet (key : String)
  | logCache (key : String)
  | logRedis (key : String) (val : String)
  deriving DecidableEq, Repr

/-- What a method of the proxy returns and does: the Go result pair `(string, error)`, the
cache behind `p.Cache` after the call, and the effects in order. -/
structure Outcome where
  val : String
  err : Option Error
  cache : Option Cache
  events : List Event
  deriving DecidableEq, Repr

/-- Go `fmt.Errorf` with a format without verbs. -/
def fmt.Errorf (msg : String) : Error := Error.errorf msg

/-- The `%T` verb of `fmt`: the dynamic type of a cached value. -/
def Value.typeName : Value → String
  | .str _ => "string"
  | .other t => t

/-- `Proxy.RedisGet` of `main.go`. -/
def Proxy.RedisGet (p : Proxy) (key : String) : Outcome :=
  match p.Client with
  | none =>
    { val := "", err := some (fmt.Errorf "redis not initialized"), cache := p.Cache, events := [] }
  | some client =>
    match client.get key with
    | .error e =>
      { val := "", err := some (Error.redis e), cache := p.Cache, events := [Event.clientGet key] }
    | .ok val =>
      { val := val, err := none, cache := p.Cache,
        events := [Event.clientGet key, Event.logRedis key val] }

/-- `Proxy.CacheGet` of `main.go`; `now` is the clock read by `item.Expired()`, `setAt` the
clock read by `Cache.Set`. -/
def Proxy.CacheGet (p : Proxy) (key : String) (now setAt : Int) : Outcome :=
  match p.Cache with
  | none =>
    { val := "", err := some (fmt.Errorf "proxy not initialized"), cache := none, events := [] }
  | some cache =>
    let (item, cache1) := cache.Get key
    let fetch : Outcome :=
      let r := ({ p with Cache := some cache1 } : Proxy).RedisGet key
      match r.err with
      | some e =>
        { val := "", err := some e, cache := some cache1,
          events := Event.cacheGet key :: Event.redisGet key :: r.events }
      | none =>
        let ttl := time.seconds p.Config.CacheTime
        { val := r.val, err := none,
          cache := some (cache1.Set key (Value.str r.val) ttl setAt),
          events := Event.cacheGet key :: Event.redisGet key :: r.events ++
            [Event.cacheSet key r.val ttl] }
    match item with
    | none => fetch
    | some it =>
      if it.Expired now then fetch
      else
        match it.value with
        | Value.str v =>
          { val := v, err := none, cache := some cache1,
            events := [Event.cacheGet key, Event.logCache key] }
        | Value.other t =>
          { val := "",
            err := some (Error.errorf
              ("cacheget: could not decode type of '" ++ (Value.other t).typeName ++
                "' for string")),
            cache := some cache1,
            events := [Event.cacheGet key, Event.logCache key] }

/-! ## The HTTP boundary -/

/-- The request as the handler reads it: `r.URL.Path`. -/
structure Request where
  path : String
  deriving DecidableEq, Repr

/-- An `http.ResponseWriter`: the status line once written, and the body written so far. -/
structure ResponseWriter where
  status : Option Nat
  body : String
  deriving DecidableEq, Repr

/-- A response writer on which nothing has been written yet. -/
def ResponseWriter.fresh : ResponseWriter := { status := none, body := "" }

/-- `w.WriteHeader(code)`: the first call fixes the status. -/
def ResponseWriter.WriteHeader (w : ResponseWriter) (code : Nat) : ResponseWriter :=
  match w.status with
  | none => { w with status := some code }
  | some _ => w

/-- `w.Write(s)`: an implicit `WriteHeader(200)` if none was written, then the bytes. -/
def ResponseWriter.Write (w : ResponseWriter) (s : String) : ResponseWriter :=
  let w1 := w.WriteHeader 200
  { w1 with body := w1.body ++ s }

/-- Go `io.WriteString(w, s)`. -/
def io.WriteString (w : ResponseWriter) (s : String) : ResponseWriter := w.Write s

/-- Go `http.StatusBadRequest`. -/
def http.StatusBadRequest : Nat := 400

/-- Go `http.StatusText(code)`, for the codes the program uses. -/
def http.StatusText (code : Nat) : String :=
  if code = 400 then "Bad Request" else if code = 200 then "OK" else ""

/-- Go `http.Error(w, error, code)`: the status, then the text and a newline (`fmt.Fprintln`);
the headers it sets are not modelled. -/
def http.Error (w : ResponseWriter) (error : String) (code : Nat) : ResponseWriter :=
  (w.WriteHeader code).Write (error ++ "\n")

/-- What `ServeHTTP` leaves behind: the response, the cache, the effects on cache and store. -/
structure Served where
  response : ResponseWriter
  cache : Option Cache
  events : List Event
  deriving DecidableEq, Repr

/-- `Proxy.ServeHTTP` of `main.go`. -/
def Proxy.ServeHTTP (p : Proxy) (w : ResponseWriter) (r : Request) (now setAt : Int) : Served :=
  let key := strings.TrimLeft r.path "/"
  if len key < 1 then
    { response := http.Error w (http.StatusText http.StatusBadRequest) http.StatusBadRequest,
      cache := p.Cache, events := [] }
  else
    let out := p.CacheGet key now setAt
    match out.err with
    | some err => { response := io.WriteString w err.Error, cache := out.cache, events := out.events }
    | none => { response := io.WriteString w out.val, cache := out.cache, events := out.events }

/-- The proxy as `main` builds it from a configuration and a Redis client. -/
def Proxy.start (cfg : RedisProxy.Config) (client : RedisProxy.Client) : Proxy :=
  { Config := cfg, Client := some client, Cache := some (Cache.New cfg.CacheSize) }

/-- The event is an invocation of the method `RedisGet`. -/
def Event.isRedisGet : Event → Bool
  | .redisGet _ => true
  | _ => false

/-- The event is an access to the backing store (a round trip of the Redis client). -/
def Event.isStoreAccess : Event → Bool
  | .clientGet _ => true
  | _ => false

/-- The event is an insertion into the cache (`Cache.Set`). -/
def Event.isCacheInsert : Event → Bool
  | .cacheSet _ _ _ => true
  | _ => false

/-- The event is a lookup in the cache (`Cache.Get`). -/
def Event.isCacheLookup : Event → Bool
  | .cacheGet _ => true
  | _ => false

/-- The proxy after a call of `CacheGet`: the same configuration and client, the cache as the
call left it. -/
def Proxy.after (p : Proxy) (out : Outcome) : Proxy := { p with Cache := out.cache }

/-- The number of accesses to the backing store among the effects of a call. -/
def storeAccesses (events : List Event) : Nat := (events.filter Event.isStoreAccess).length

/-- The `int64` n is a number of seconds that `time.Duration` can hold in nanoseconds. -/
def fitsDuration (n : Int) : Prop := -(2 ^ 63) ≤ n * 1000000000 ∧ n * 1000000000 < 2 ^ 63

instance (n : Int) : Decidable (fitsDuration n) := by
  unfold fitsDuration
  exact inferInstance

/-- The condition of the `if` of `CacheGet`: the key is absent from the cache or its entry
is expired at the instant `now`. -/
def Cache.misses (c : Cache) (k : String) (now : Int) : Bool :=
  match c.peek k with
  | none => true
  | some it => it.Expired now

/-- One call of `CacheGet`: the key asked, and the two readings of the clock. -/
structure Call where
  key : String
  now : Int
  setAt : Int
  deriving DecidableEq, Repr

/-- One call of `CacheGet` with key k at instant t. -/
def callAt (k : String) (t : Int) : Call := { key := k, now := t, setAt := t }

/-- The proxy after a sequence of calls of `CacheGet`, made one after the other. -/
def Proxy.resolveAll (p : Proxy) : List Call → Proxy
  | [] => p
  | c :: cs => (p.after (p.CacheGet c.key c.now c.setAt)).resolveAll cs

/-- The entry that a call of `CacheGet` inserts for a key the store holds. -/
def entryOf (cfg : Config) (cl : Client) (c : Call) : Item :=
  { key := c.key,
    value := Value.str (match cl.get c.key with
      | Except.ok v => v
      | Except.error _ => ""),
    insertedAt := c.setAt,
    ttl := time.seconds cfg.CacheTime }

/-- The cache states reachable from an empty cache by calls of `CacheGet`, each made by a
proxy with any configuration and any client, for any key, at any instants. -/
inductive Reachable : Cache → Prop where
  | empty (n : Int) : Reachable (Cache.New n)
  | step (c c1 : Cache) (p : Proxy) (k : String) (now setAt : Int) :
      Reachable c → p.Cache = some c → (p.CacheGet k now setAt).cache = some c1 → Reachable c1

/-- The error `CacheGet` makes when a cached value is not a string. -/
def isDecodeError (e : Error) : Prop :=
  ∃ t : String, e = Error.errorf ("cacheget: could not decode type of '" ++ t ++ "' for string")

/-- Every value in the cache is a string. -/
def Cache.allStrings (c : Cache) : Prop := ∀ it ∈ c.items, ∃ s, it.value = Value.str s

/-! ## Concrete states used as test inputs -/

/-- A Redis holding `a = 1`, `b = 2`, `c = 3`, `/a = 2` and the empty key `= x`; every other
key is answered with `redis.Nil`. -/
def sampleClient : Client :=
  { get := fun k =>
      if k = "a" then Except.ok "1"
      else if k = "b" then Except.ok "2"
      else if k = "c" then Except.ok "3"
      else if k = "/a" then Except.ok "2"
      else if k = "" then Except.ok "x"
      else Except.error { msg := "redis: nil" } }

/-- The defaults of `main` with the capacity of the spec's concrete scenario. -/
def sampleConfig : Config :=
  { RedisAddr := "redis:6379", CacheTime := 120, CacheSize := 2, Port := "8080" }

/-- The proxy `main` builds from `sampleConfig`, before any request. -/
def sampleProxy : Proxy := Proxy.start sampleConfig sampleClient

/-- A cache of capacity 2 holding `a = 1`, inserted at instant 0 with a TTL of 120 s. -/
def warmCache : Cache :=
  { maxSize := 2,
    items := [{ key := "a", value := Value.str "1", insertedAt := 0, ttl := 120000000000 }] }

/-- A proxy whose cache is `warmCache`. -/
def warmProxy : Proxy := { Config := sampleConfig, Client := some sampleClient, Cache := some warmCache }

/-- A cache of capacity 2 that is full: `b = 2` most recently used, then `a = 1`. -/
def fullCache : Cache :=
  { maxSize := 2,
    items := [{ key := "b", value := Value.str "2", insertedAt := 2, ttl := 120000000000 },
              { key := "a", value := Value.str "1", insertedAt := 1, ttl := 120000000000 }] }

/-- A proxy whose cache is `fullCache`. -/
def fullProxy : Proxy := { Config := sampleConfig, Client := some sampleClient, Cache := some fullCache }

/-- What an insertion for `key` leaves of the entries `c` held: all but the old entry of
`key` if it had one; otherwise all but the least recently used if the cache is at
capacity; otherwise all. -/
def Cache.keptBy (c : Cache) (key : String) : List Item :=
  if (c.peek key).isSome then c.items.filter (fun x => x.key != key)
  else if (c.items.length : Int) ≥ c.maxSize then c.items.dropLast
  else c.items

/-- A configuration whose `CacheTime`, a valid `int64`, exceeds what `time.Duration` holds. -/
def overflowConfig : Config :=
  { RedisAddr := "redis:6379", CacheTime := 9223372037, CacheSize := 5000, Port := "8080" }

/-- The proxy `main` builds from `overflowConfig`. -/
def overflowProxy : Proxy := Proxy.start overflowConfig sampleClient

/-- A configuration with a time-to-live of zero seconds. -/
def zeroTtlConfig : Config :=
  { RedisAddr := "redis:6379", CacheTime := 0, CacheSize := 5000, Port := "8080" }

/-- The proxy `main` builds from `zeroTtlConfig`. -/
def zeroTtlProxy : Proxy := Proxy.start zeroTtlConfig sampleClient

/-- A cache holding an entry for `badkey` inserted at instant 0 with a TTL of 5 ns. -/
def staleCache : Cache :=
  { maxSize := 2,
    items := [{ key := "badkey", value := Value.str "old", insertedAt := 0, ttl := 5 }] }

/-- A proxy whose cache is `staleCache`. -/
def staleProxy : Proxy := { Config := sampleConfig, Client := some sampleClient, Cache := some staleCache }

/-! ## Lemmas on the Go runtime functions -/

theorem utf8ByteSize_go_pos (c : Char) (cs : List Char) : 0 < String.utf8ByteSize.go (c :: cs) := by
  have h := Char.utf8Size_pos c
  simp only [String.utf8ByteSize.go]
  omega

theorem len_lt_one_iff (s : String) : len s < 1 ↔ s = "" := by
  cases s with
  | mk cs =>
    cases cs with
    | nil => simp [len, String.utf8ByteSize, String.utf8ByteSize.go]
    | cons c cs =>
      have h := utf8ByteSize_go_pos c cs
      constructor
      · intro h1
        simp only [len, String.utf8ByteSize] at h1
        omega
      · intro h1
        exact absurd (congrArg String.data h1) (by simp)

theorem trimLeft_slash_cons (k : String) (hk : k.data.head? ≠ some '/') :
    strings.TrimLeft ("/" ++ k) "/" = k := by
  cases k with
  | mk cs =>
    cases cs with
    | nil => rfl
    | cons c cs =>
      have hc : c ≠ '/' := by
        intro h
        apply hk
        simp [h]
      have hne : (c == '/') = false := by
        simp [beq_eq_false_iff_ne, hc]
      show String.mk (List.dropWhile _ ("/" ++ String.mk (c :: cs)).data) = _
      have hd : ("/" ++ String.mk (c :: cs)).data = '/' :: c :: cs := rfl
      rw [hd]
      simp [List.dropWhile, List.contains, List.elem, hne]

theorem wrapInt64_of_fits (x : Int) (h1 : -(2 ^ 63) ≤ x) (h2 : x < 2 ^ 63) : wrapInt64 x = x := by
  unfold wrapInt64
  have h : (x + 2 ^ 63) % 2 ^ 64 = x + 2 ^ 63 := Int.emod_eq_of_lt (by omega) (by omega)
  omega

/-! ## Lemmas on the cache layer -/

theorem find_cons_of_eq (a : Item) (l : List Item) (k : String) (h : a.key = k) :
    (a :: l).find? (fun it => it.key == k) = some a :=
  List.find?_cons_of_pos l (by simp [h])

theorem find_cons_of_ne (a : Item) (l : List Item) (k : String) (h : a.key ≠ k) :
    (a :: l).find? (fun it => it.key == k) = l.find? (fun it => it.key == k) :=
  List.find?_cons_of_neg l (by simp [h])

theorem filter_cons_of_eq (a : Item) (l : List Item) (k : String) (h : a.key = k) :
    (a :: l).filter (fun x => x.key != k) = l.filter (fun x => x.key != k) :=
  List.filter_cons_of_neg (by simp [h])

theorem filter_cons_of_ne (a : Item) (l : List Item) (k : String) (h : a.key ≠ k) :
    (a :: l).filter (fun x => x.key != k) = a :: l.filter (fun x => x.key != k) :=
  List.filter_cons_of_pos (by simp [h])

theorem find_filter_ne (l : List Item) (k k' : String) (h : k' ≠ k) :
    (l.filter (fun x => x.key != k)).find? (fun it => it.key == k') =
      l.find? (fun it => it.key == k') := by
  induction l with
  | nil => rfl
  | cons a l ih =>
    by_cases hak : a.key = k
    · have hak' : a.key ≠ k' := fun h' => h (h'.symm.trans hak)
      rw [filter_cons_of_eq a l k hak, find_cons_of_ne a l k' hak', ih]
    · rw [filter_cons_of_ne a l k hak]
      by_cases hak' : a.key = k'
      · rw [find_cons_of_eq _ _ k' hak', find_cons_of_eq _ _ k' hak']
      · rw [find_cons_of_ne _ _ k' hak', find_cons_of_ne _ _ k' hak', ih]

theorem find_key_eq (l : List Item) (k : String) (it : Item)
    (h : l.find? (fun x => x.key == k) = some it) : it.key = k := by
  have := List.find?_some h
  simpa using this

theorem find_mem (l : List Item) (k : String) (it : Item)
    (h : l.find? (fun x => x.key == k) = some it) : it ∈ l :=
  List.mem_of_find?_eq_some h

theorem find_none_iff (l : List Item) (k : String) :
    l.find? (fun x => x.key == k) = none ↔ ∀ x ∈ l, x.key ≠ k := by
  simp [List.find?_eq_none]

theorem filter_eq_self_of_absent (l : List Item) (k : String)
    (h : l.find? (fun x => x.key == k) = none) : l.filter (fun x => x.key != k) = l := by
  rw [find_none_iff] at h
  rw [List.filter_eq_self]
  intro a ha
  simp [h a ha]

theorem Cache.Get_fst (c : Cache) (k : String) : (c.Get k).1 = c.peek k := by
  unfold Cache.Get
  cases h : c.peek k <;> rfl

theorem Cache.Get_absent (c : Cache) (k : String) (h : c.peek k = none) : c.Get k = (none, c) := by
  unfold Cache.Get
  rw [h]

theorem Cache.Get_present (c : Cache) (k : String) (it : Item) (h : c.peek k = some it) :
    c.Get k = (some it, { c with items := it :: c.items.filter (fun x => x.key != k) }) := by
  unfold Cache.Get
  rw [h]

theorem Cache.Get_maxSize (c : Cache) (k : String) : (c.Get k).2.maxSize = c.maxSize := by
  unfold Cache.Get
  cases h : c.peek k <;> rfl

/-- A lookup changes the recency order only: every key has the same entry afterwards. -/
theorem Cache.peek_Get (c : Cache) (k k' : String) : (c.Get k).2.peek k' = c.peek k' := by
  cases h : c.peek k with
  | none => rw [Cache.Get_absent c k h]
  | some it =>
    rw [Cache.Get_present c k it h]
    have hk : it.key = k := find_key_eq _ _ _ h
    show (it :: c.items.filter (fun x => x.key != k)).find? (fun x => x.key == k') = c.peek k'
    by_cases hkk : k' = k
    · subst hkk
      rw [find_cons_of_eq _ _ _ hk]
      exact h.symm
    · have : it.key ≠ k' := fun h' => hkk (h'.symm.trans hk)
      rw [find_cons_of_ne _ _ _ this]
      exact find_filter_ne c.items k k' hkk

/-- A lookup keeps the set of entries: the same entries, possibly in another order. -/
theorem Cache.mem_Get (c : Cache) (k : String) (x : Item) (hx : x ∈ (c.Get k).2.items) :
    x ∈ c.items := by
  cases h : c.peek k with
  | none => rw [Cache.Get_absent c k h] at hx; exact hx
  | some it =>
    rw [Cache.Get_present c k it h] at hx
    simp only [List.mem_cons, List.mem_filter] at hx
    rcases hx with rfl | ⟨hx, _⟩
    · exact find_mem _ _ _ h
    · exact hx

theorem Cache.peek_Set_self (c : Cache) (k : String) (v : Value) (ttl t : Int) :
    (c.Set k v ttl t).peek k = some { key := k, value := v, insertedAt := t, ttl := ttl } := by
  unfold Cache.Set
  cases h : c.peek k <;> simp [Cache.peek, List.find?_cons]

theorem Cache.Set_maxSize (c : Cache) (k : String) (v : Value) (ttl t : Int) :
    (c.Set k v ttl t).maxSize = c.maxSize := by
  unfold Cache.Set
  cases h : c.peek k <;> rfl

theorem Cache.mem_Set (c : Cache) (k : String) (v : Value) (ttl t : Int) (x : Item)
    (hx : x ∈ (c.Set k v ttl t).items) :
    x = { key := k, value := v, insertedAt := t, ttl := ttl } ∨ x ∈ c.items := by
  unfold Cache.Set at hx
  cases h : c.peek k with
  | none =>
    rw [h] at hx
    simp only [List.mem_cons] at hx
    rcases hx with rfl | hx
    · exact Or.inl rfl
    · right
      split at hx
      · exact List.mem_of_mem_dropLast hx
      · exact hx
  | some it =>
    rw [h] at hx
    simp only [List.mem_cons, List.mem_filter] at hx
    rcases hx with rfl | ⟨hx, _⟩
    · exact Or.inl rfl
    · exact Or.inr hx

theorem find_dropLast (l : List Item) (k : String) :
    l.dropLast.find? (fun x => x.key == k) = l.find? (fun x => x.key == k) ∨
      (l.dropLast.find? (fun x => x.key == k) = none ∧
        l.getLast? = l.find? (fun x => x.key == k)) := by
  induction l with
  | nil => left; rfl
  | cons a l ih =>
    cases l with
    | nil =>
      by_cases hak : a.key = k
      · right
        refine ⟨rfl, ?_⟩
        rw [find_cons_of_eq _ _ _ hak]
        rfl
      · left
        rw [find_cons_of_ne _ _ _ hak]
        rfl
    | cons b l =>
      rw [List.dropLast_cons₂]
      by_cases hak : a.key = k
      · left
        rw [find_cons_of_eq _ _ _ hak, find_cons_of_eq _ _ _ hak]
      · rw [find_cons_of_ne _ _ _ hak, find_cons_of_ne a _ _ hak, List.getLast?_cons_cons]
        exact ih

/-- An insertion leaves the entry of every other key as it was, or removes it; it
removes one only when the inserted key is new and the cache is at capacity, and the one
removed is the least recently used entry. -/
theorem Cache.peek_Set_other (c : Cache) (k k' : String) (v : Value) (ttl t : Int) (h : k' ≠ k) :
    (c.Set k v ttl t).peek k' = c.peek k' ∨
      ((c.Set k v ttl t).peek k' = none ∧ c.peek k = none ∧ (c.items.length : Int) ≥ c.maxSize ∧
        c.items.getLast? = c.peek k') := by
  have hk : (⟨k, v, t, ttl⟩ : Item).key ≠ k' := fun h' => h h'.symm
  unfold Cache.Set
  cases hp : c.peek k with
  | some it =>
    left
    show (_ :: c.items.filter (fun x => x.key != k)).find? (fun x => x.key == k') = c.peek k'
    rw [find_cons_of_ne _ _ _ hk]
    exact find_filter_ne c.items k k' h
  | none =>
    by_cases hfull : (c.items.length : Int) ≥ c.maxSize
    · show (_ :: (if (c.items.length : Int) ≥ c.maxSize then c.items.dropLast else c.items)).find?
        (fun x => x.key == k') = c.peek k' ∨ (_ :: (if (c.items.length : Int) ≥ c.maxSize then
          c.items.dropLast else c.items)).find? (fun x => x.key == k') = none ∧ _
      rw [if_pos hfull, find_cons_of_ne _ _ _ hk]
      rcases find_dropLast c.items k' with h1 | ⟨h1, h2⟩
      · left; exact h1
      · right; exact ⟨h1, rfl, hfull, h2⟩
    · left
      show (_ :: (if (c.items.length : Int) ≥ c.maxSize then c.items.dropLast else c.items)).find?
        (fun x => x.key == k') = c.peek k'
      rw [if_neg hfull, find_cons_of_ne _ _ _ hk]
      rfl

/-- The entries after a lookup of a key followed by an insertion for it: the new entry in
front of what the insertion keeps. -/
theorem Cache.items_Set_Get (c : Cache) (k : String) (v : Value) (ttl t : Int) :
    ((c.Get k).2.Set k v ttl t).items = Item.mk k v t ttl :: c.keptBy k := by
  unfold Cache.keptBy
  cases hp : c.peek k with
  | none =>
    rw [Cache.Get_absent c k hp]
    unfold Cache.Set
    rw [hp]
    rfl
  | some it =>
    have hk : it.key = k := find_key_eq _ _ _ hp
    rw [Cache.Get_present c k it hp]
    have hp1 : Cache.peek (Cache.mk c.maxSize (it :: c.items.filter (fun x => x.key != k))) k
        = some it := find_cons_of_eq _ _ _ hk
    unfold Cache.Set
    rw [hp1]
    show Item.mk k v t ttl :: (it :: c.items.filter (fun x => x.key != k)).filter
      (fun x => x.key != k) = _
    rw [filter_cons_of_eq _ _ _ hk, List.filter_filter]
    simp

/-- After an insertion the cache holds exactly one entry for the inserted key. -/
theorem Cache.count_Set_self (c : Cache) (k : String) (v : Value) (ttl t : Int) :
    ((c.Set k v ttl t).items.filter (fun x => x.key == k)).length = 1 := by
  unfold Cache.Set
  cases hp : c.peek k with
  | some it =>
    have : (c.items.filter (fun x => x.key != k)).filter (fun x => x.key == k) = [] := by
      rw [List.filter_eq_nil_iff]
      intro a ha
      simp only [List.mem_filter] at ha
      simpa using ha.2
    simp [List.filter_cons, this]
  | none =>
    have hnone : ∀ x ∈ c.items, x.key ≠ k := (find_none_iff _ _).1 hp
    have : ∀ l : List Item, (∀ x ∈ l, x ∈ c.items) → l.filter (fun x => x.key == k) = [] := by
      intro l hl
      rw [List.filter_eq_nil_iff]
      intro a ha
      simpa using hnone a (hl a ha)
    by_cases hfull : (c.items.length : Int) ≥ c.maxSize
    · simp [List.filter_cons, hfull, this c.items.dropLast (fun x hx => List.mem_of_mem_dropLast hx)]
    · simp [List.filter_cons, hfull, this c.items (fun x hx => hx)]

/-! ## The branches of `CacheGet` -/

theorem cacheGet_uninit (p : Proxy) (k : String) (now setAt : Int) (hc : p.Cache = none) :
    p.CacheGet k now setAt =
      { val := "", err := some (Error.errorf "proxy not initialized"), cache := none,
        events := [] } := by
  unfold Proxy.CacheGet
  rw [hc]
  rfl

theorem cacheGet_hit (p : Proxy) (c : Cache) (k v : String) (it : Item) (now setAt : Int)
    (hc : p.Cache = some c) (hp : c.peek k = some it) (hexp : it.Expired now = false)
    (hv : it.value = Value.str v) :
    p.CacheGet k now setAt =
      { val := v, err := none, cache := some (c.Get k).2,
        events := [Event.cacheGet k, Event.logCache k] } := by
  unfold Proxy.CacheGet
  rw [hc]
  simp only [Cache.Get_present c k it hp, hexp, hv]
  rfl

theorem cacheGet_hit_other (p : Proxy) (c : Cache) (k t : String) (it : Item)
    (now setAt : Int) (hc : p.Cache = some c) (hp : c.peek k = some it)
    (hexp : it.Expired now = false) (hv : it.value = Value.other t) :
    p.CacheGet k now setAt =
      { val := "",
        err := some (Error.errorf ("cacheget: could not decode type of '" ++ t ++ "' for string")),
        cache := some (c.Get k).2,
        events := [Event.cacheGet k, Event.logCache k] } := by
  unfold Proxy.CacheGet
  rw [hc]
  simp only [Cache.Get_present c k it hp, hexp, hv]
  rfl

theorem cacheGet_miss (p : Proxy) (c : Cache) (k : String) (now setAt : Int)
    (hc : p.Cache = some c) (hm : c.misses k now = true) :
    p.CacheGet k now setAt =
      match (({ p with Cache := some (c.Get k).2 } : Proxy).RedisGet k).err with
      | some e =>
        { val := "", err := some e, cache := some (c.Get k).2,
          events := Event.cacheGet k :: Event.redisGet k ::
            (({ p with Cache := some (c.Get k).2 } : Proxy).RedisGet k).events }
      | none =>
        { val := (({ p with Cache := some (c.Get k).2 } : Proxy).RedisGet k).val, err := none,
          cache := some ((c.Get k).2.Set k
            (Value.str (({ p with Cache := some (c.Get k).2 } : Proxy).RedisGet k).val)
            (time.seconds p.Config.CacheTime) setAt),
          events := Event.cacheGet k :: Event.redisGet k ::
            (({ p with Cache := some (c.Get k).2 } : Proxy).RedisGet k).events ++
            [Event.cacheSet k (({ p with Cache := some (c.Get k).2 } : Proxy).RedisGet k).val
              (time.seconds p.Config.CacheTime)] } := by
  unfold Proxy.CacheGet
  rw [hc]
  unfold Cache.misses at hm
  cases hp : c.peek k with
  | none =>
    simp only [Cache.Get_absent c k hp]
  | some it =>
    rw [hp] at hm
    have hm' : it.Expired now = true := hm
    simp only [Cache.Get_present c k it hp]
    rw [if_pos hm']

theorem cacheGet_miss_ok (p : Proxy) (c : Cache) (cl : Client) (k v : String)
    (now setAt : Int) (hc : p.Cache = some c) (hcl : p.Client = some cl)
    (hm : c.misses k now = true) (hv : cl.get k = Except.ok v) :
    p.CacheGet k now setAt =
      { val := v, err := none,
        cache := some ((c.Get k).2.Set k (Value.str v) (time.seconds p.Config.CacheTime) setAt),
        events := [Event.cacheGet k, Event.redisGet k, Event.clientGet k, Event.logRedis k v,
          Event.cacheSet k v (time.seconds p.Config.CacheTime)] } := by
  rw [cacheGet_miss p c k now setAt hc hm]
  simp only [Proxy.RedisGet, hcl, hv]
  rfl

theorem cacheGet_miss_err (p : Proxy) (c : Cache) (cl : Client) (k : String)
    (e : RedisError) (now setAt : Int) (hc : p.Cache = some c) (hcl : p.Client = some cl)
    (hm : c.misses k now = true) (hv : cl.get k = Except.error e) :
    p.CacheGet k now setAt =
      { val := "", err := some (Error.redis e), cache := some (c.Get k).2,
        events := [Event.cacheGet k, Event.redisGet k, Event.clientGet k] } := by
  rw [cacheGet_miss p c k now setAt hc hm]
  simp only [Proxy.RedisGet, hcl, hv]

theorem cacheGet_miss_noclient (p : Proxy) (c : Cache) (k : String)
    (now setAt : Int) (hc : p.Cache = some c) (hcl : p.Client = none)
    (hm : c.misses k now = true) :
    p.CacheGet k now setAt =
      { val := "", err := some (Error.errorf "redis not initialized"), cache := some (c.Get k).2,
        events := [Event.cacheGet k, Event.redisGet k] } := by
  rw [cacheGet_miss p c k now setAt hc hm]
  simp only [Proxy.RedisGet, hcl]
  rfl

theorem Cache.misses_Get (c : Cache) (k k' : String) (now : Int) :
    (c.Get k).2.misses k' now = c.misses k' now := by
  unfold Cache.misses
  rw [Cache.peek_Get]

theorem misses_of_absent_or_expired (c : Cache) (k : String) (now : Int)
    (h : c.peek k = none ∨ ∃ it, c.peek k = some it ∧ it.Expired now = true) :
    c.misses k now = true := by
  unfold Cache.misses
  rcases h with h | ⟨it, h, he⟩
  · rw [h]
  · rw [h]; exact he

theorem expired_mono (it : Item) (t1 t2 : Int) (h : t1 ≤ t2) (he : it.Expired t1 = true) :
    it.Expired t2 = true := by
  unfold Item.Expired at *
  simp only [decide_eq_true_eq] at *
  omega

theorem misses_mono (c : Cache) (k : String) (t1 t2 : Int) (h : t1 ≤ t2)
    (he : c.misses k t1 = true) : c.misses k t2 = true := by
  unfold Cache.misses at *
  cases hp : c.peek k with
  | none => rfl
  | some it =>
    rw [hp] at he
    exact expired_mono it t1 t2 h he

/-! ## The claims -/

/-- C1. Cache hit: when the cache holds for key k an entry that is not expired and whose
value is the string v, `CacheGet(k)` returns `(v, nil)`, invokes neither `RedisGet` nor the
Redis client, inserts nothing, and leaves the entry of k (value, insertion instant, TTL)
and of every other key as it was. -/
theorem cacheGet_hit_served_from_cache (p : Proxy) (c : Cache) (k v : String) (it : Item)
    (now setAt : Int) (hc : p.Cache = some c) (hp : c.peek k = some it)
    (hexp : it.Expired now = false) (hv : it.value = Value.str v) :
    (p.CacheGet k now setAt).val = v ∧
    (p.CacheGet k now setAt).err = none ∧
    (∀ ev ∈ (p.CacheGet k now setAt).events,
      ev.isRedisGet = false ∧ ev.isStoreAccess = false ∧ ev.isCacheInsert = false) ∧
    ∃ c1, (p.CacheGet k now setAt).cache = some c1 ∧ c1.peek k = some it ∧
      ∀ k1, c1.peek k1 = c.peek k1 := by
  rw [cacheGet_hit p c k v it now setAt hc hp hexp hv]
  refine ⟨rfl, rfl, ?_, (c.Get k).2, rfl, ?_, fun k1 => Cache.peek_Get c k k1⟩
  · intro ev hev
    simp only [List.mem_cons, List.mem_singleton, List.not_mem_nil, or_false] at hev
    rcases hev with rfl | rfl <;> exact ⟨rfl, rfl, rfl⟩
  · rw [Cache.peek_Get]; exact hp

/-- C1, at a concrete state: the cache holds `a = 1` inserted at 0 for 120 s, read at 5 ns. -/
theorem cacheGet_hit_served_from_cache_witness :
    (warmProxy.CacheGet "a" 5 5).val = "1" ∧
    (warmProxy.CacheGet "a" 5 5).err = none ∧
    (∀ ev ∈ (warmProxy.CacheGet "a" 5 5).events,
      ev.isRedisGet = false ∧ ev.isStoreAccess = false ∧ ev.isCacheInsert = false) ∧
    ∃ c1, (warmProxy.CacheGet "a" 5 5).cache = some c1 ∧
      c1.peek "a" = some { key := "a", value := Value.str "1", insertedAt := 0, ttl := 120000000000 } ∧
      ∀ k1, c1.peek k1 = warmCache.peek k1 :=
  cacheGet_hit_served_from_cache warmProxy warmCache "a" "1"
    { key := "a", value := Value.str "1", insertedAt := 0, ttl := 120000000000 } 5 5
    rfl (by decide) (by decide) rfl

/-- C2, as stated, fails: with `CacheTime = 9223372037` the product
`time.Duration(CacheTime) * time.Second` overflows, and the entry inserted after a miss has
a TTL of -9223372036709551616 ns, not of 9223372037 s. -/
theorem cacheGet_miss_ttl_overflow :
    overflowProxy.Cache = some (Cache.New 5000) ∧
    (Cache.New 5000).peek "a" = none ∧
    sampleClient.get "a" = Except.ok "1" ∧
    (overflowProxy.CacheGet "a" 0 0).cache =
      some { maxSize := 5000,
             items := [{ key := "a", value := Value.str "1", insertedAt := 0,
                         ttl := -9223372036709551616 }] } ∧
    ¬ ∃ c1, (overflowProxy.CacheGet "a" 0 0).cache = some c1 ∧
      c1.peek "a" = some { key := "a", value := Value.str "1", insertedAt := 0,
                           ttl := overflowConfig.CacheTime * 1000000000 } := by
  refine ⟨rfl, rfl, rfl, by decide, ?_⟩
  rintro ⟨c1, h1, h2⟩
  have h : (overflowProxy.CacheGet "a" 0 0).cache =
      some { maxSize := 5000,
             items := [{ key := "a", value := Value.str "1", insertedAt := 0,
                         ttl := -9223372036709551616 }] } := by decide
  rw [h] at h1
  cases h1
  revert h2
  decide

/-- C2 (amended). Cache miss with store success: when k is absent from the cache or its entry
is expired, the Redis client answers v for k, and `CacheTime` seconds fit in a
`time.Duration`, `CacheGet(k)` returns `(v, nil)`; afterwards the cache holds exactly one
entry for k, with value v, inserted at the instant of the `Set`, with a TTL of `CacheTime`
seconds; entries of other keys are not changed, capacity eviction aside: the cache holds
the new entry in front of the entries it held for the other keys, in their order, less
the least recently used one when k was new and the cache at capacity; so the entry of
every other key is as before, except that of at most one key, the least recently used,
which is gone. -/
theorem cacheGet_miss_populates (p : Proxy) (c : Cache) (cl : Client) (k v : String)
    (now setAt : Int) (hc : p.Cache = some c) (hcl : p.Client = some cl)
    (hm : c.peek k = none ∨ ∃ it, c.peek k = some it ∧ it.Expired now = true)
    (hv : cl.get k = Except.ok v) (hfit : fitsDuration p.Config.CacheTime) :
    (p.CacheGet k now setAt).val = v ∧
    (p.CacheGet k now setAt).err = none ∧
    ∃ c1, (p.CacheGet k now setAt).cache = some c1 ∧
      c1.peek k = some { key := k, value := Value.str v, insertedAt := setAt,
                         ttl := p.Config.CacheTime * 1000000000 } ∧
      (c1.items.filter (fun x => x.key == k)).length = 1 ∧
      c1.items = Item.mk k (Value.str v) setAt (p.Config.CacheTime * 1000000000) ::
        (if (c.peek k).isSome then c.items.filter (fun x => x.key != k)
         else if (c.items.length : Int) ≥ c.maxSize then c.items.dropLast
         else c.items) ∧
      (∀ k1, k1 ≠ k → c1.peek k1 = c.peek k1 ∨
        (c1.peek k1 = none ∧ c.peek k = none ∧ (c.items.length : Int) ≥ c.maxSize ∧
          c.items.getLast? = c.peek k1)) ∧
      ∀ k1 k2, k1 ≠ k → k2 ≠ k → c1.peek k1 ≠ c.peek k1 → c1.peek k2 ≠ c.peek k2 → k1 = k2 := by
  have hmiss := misses_of_absent_or_expired c k now hm
  rw [cacheGet_miss_ok p c cl k v now setAt hc hcl hmiss hv]
  have httl : time.seconds p.Config.CacheTime = p.Config.CacheTime * 1000000000 :=
    wrapInt64_of_fits _ hfit.1 hfit.2
  have hother : ∀ k1, k1 ≠ k →
      ((c.Get k).2.Set k (Value.str v) (time.seconds p.Config.CacheTime) setAt).peek k1
        = c.peek k1 ∨
      (((c.Get k).2.Set k (Value.str v) (time.seconds p.Config.CacheTime) setAt).peek k1 = none ∧
        c.peek k = none ∧ (c.items.length : Int) ≥ c.maxSize ∧
        c.items.getLast? = c.peek k1) := by
    intro k1 hk1
    rcases Cache.peek_Set_other (c.Get k).2 k k1 (Value.str v)
      (time.seconds p.Config.CacheTime) setAt hk1 with h | ⟨h1, h2, h3, h4⟩
    · left; rw [h, Cache.peek_Get]
    · right
      rw [Cache.peek_Get] at h2
      rw [Cache.Get_absent c k h2] at h3 h4
      exact ⟨h1, h2, h3, h4⟩
  refine ⟨rfl, rfl, _, rfl, ?_, Cache.count_Set_self _ _ _ _ _, ?_, hother, ?_⟩
  · rw [Cache.peek_Set_self, httl]
  · rw [Cache.items_Set_Get, httl]
    rfl
  · intro k1 k2 hk1 hk2 hd1 hd2
    rcases hother k1 hk1 with h1 | ⟨_, _, _, hl1⟩
    · exact absurd h1 hd1
    · rcases hother k2 hk2 with h2 | ⟨hn2, _, _, hl2⟩
      · exact absurd h2 hd2
      · cases hp2 : c.peek k2 with
        | none => rw [hp2] at hd2; exact absurd hn2 hd2
        | some it =>
          have e2 : it.key = k2 := find_key_eq _ _ _ hp2
          have hp1 : c.peek k1 = some it := by rw [← hl1, hl2, hp2]
          have e1 : it.key = k1 := find_key_eq _ _ _ hp1
          rw [← e1, ← e2]

/-- C2 (amended), at a concrete state: the full cache `fullCache` (capacity 2, holding `b`
and `a`), asked for the new key `c`; the least recently used entry, that of `a`, goes. -/
theorem cacheGet_miss_populates_witness :
    (fullProxy.CacheGet "c" 7 9).val = "3" ∧
    (fullProxy.CacheGet "c" 7 9).err = none ∧
    ∃ c1, (fullProxy.CacheGet "c" 7 9).cache = some c1 ∧
      c1.peek "c" = some { key := "c", value := Value.str "3", insertedAt := 9,
                           ttl := fullProxy.Config.CacheTime * 1000000000 } ∧
      (c1.items.filter (fun x => x.key == "c")).length = 1 ∧
      c1.items = Item.mk "c" (Value.str "3") 9 (fullProxy.Config.CacheTime * 1000000000) ::
        (if (fullCache.peek "c").isSome then fullCache.items.filter (fun x => x.key != "c")
         else if (fullCache.items.length : Int) ≥ fullCache.maxSize then fullCache.items.dropLast
         else fullCache.items) ∧
      (∀ k1, k1 ≠ "c" → c1.peek k1 = fullCache.peek k1 ∨
        (c1.peek k1 = none ∧ fullCache.peek "c" = none ∧
          (fullCache.items.length : Int) ≥ fullCache.maxSize ∧
          fullCache.items.getLast? = fullCache.peek k1)) ∧
      ∀ k1 k2, k1 ≠ "c" → k2 ≠ "c" → c1.peek k1 ≠ fullCache.peek k1 →
        c1.peek k2 ≠ fullCache.peek k2 → k1 = k2 :=
  cacheGet_miss_populates fullProxy fullCache sampleClient "c" "3" 7 9 rfl rfl
    (Or.inl (by decide)) rfl (by decide)

/-- C3, as stated, fails: the cache holds for `badkey` an entry expired at instant 10, the
Redis client answers `redis.Nil`; `CacheGet` returns that error, and the expired entry is
still in the cache afterwards. -/
theorem cacheGet_store_failure_keeps_stale_entry :
    staleProxy.Cache = some staleCache ∧
    (∃ it, staleCache.peek "badkey" = some it ∧ it.Expired 10 = true) ∧
    sampleClient.get "badkey" = Except.error { msg := "redis: nil" } ∧
    (staleProxy.CacheGet "badkey" 10 10).err = some (Error.redis { msg := "redis: nil" }) ∧
    ¬ ∃ c1, (staleProxy.CacheGet "badkey" 10 10).cache = some c1 ∧ (c1.Get "badkey").1 = none := by
  refine ⟨rfl, ⟨_, rfl, by decide⟩, rfl, by decide, ?_⟩
  rintro ⟨c1, h1, h2⟩
  have h : (staleProxy.CacheGet "badkey" 10 10).cache = some staleCache := by decide
  rw [h] at h1
  cases h1
  revert h2
  decide

/-- C3 (amended). Error transparency: when K is absent from the cache or its entry is expired
and the Redis client fails with e for K, `CacheGet(K)` returns the empty string and exactly
e, inserts nothing, and leaves every key with the entry it had: K has no entry if it had
none, and keeps its expired entry if it had one, so K has no unexpired entry at any later
instant and a second `CacheGet(K)` against the same store fails with e again. -/
theorem cacheGet_store_failure_transparent (p : Proxy) (c : Cache) (cl : Client) (k : String)
    (e : RedisError) (now setAt : Int) (hc : p.Cache = some c) (hcl : p.Client = some cl)
    (hm : c.peek k = none ∨ ∃ it, c.peek k = some it ∧ it.Expired now = true)
    (he : cl.get k = Except.error e) :
    (p.CacheGet k now setAt).val = "" ∧
    (p.CacheGet k now setAt).err = some (Error.redis e) ∧
    (∀ ev ∈ (p.CacheGet k now setAt).events, ev.isCacheInsert = false) ∧
    ∃ c1, (p.CacheGet k now setAt).cache = some c1 ∧
      (∀ k1, c1.peek k1 = c.peek k1) ∧
      (c.peek k = none → (c1.Get k).1 = none) ∧
      (∀ now2 it, now ≤ now2 → c1.peek k = some it → it.Expired now2 = true) ∧
      ∀ now2 setAt2, now ≤ now2 →
        ((p.after (p.CacheGet k now setAt)).CacheGet k now2 setAt2).val = "" ∧
        ((p.after (p.CacheGet k now setAt)).CacheGet k now2 setAt2).err = some (Error.redis e) := by
  have hmiss := misses_of_absent_or_expired c k now hm
  have h1 := cacheGet_miss_err p c cl k e now setAt hc hcl hmiss he
  have hafter : (p.after (p.CacheGet k now setAt)).Cache = some (c.Get k).2 := by
    rw [h1]; rfl
  have hcl1 : (p.after (p.CacheGet k now setAt)).Client = some cl := hcl
  refine ⟨by rw [h1], by rw [h1], ?_, (c.Get k).2, by rw [h1],
    fun k1 => Cache.peek_Get c k k1, ?_, ?_, ?_⟩
  · intro ev hev
    rw [h1] at hev
    simp only [List.mem_cons, List.mem_singleton, List.not_mem_nil, or_false] at hev
    rcases hev with rfl | rfl | rfl <;> rfl
  · intro habs
    rw [Cache.Get_fst, Cache.peek_Get]
    exact habs
  · intro now2 it hle hpk
    rw [Cache.peek_Get] at hpk
    have h2 := misses_mono c k now now2 hle hmiss
    unfold Cache.misses at h2
    rw [hpk] at h2
    exact h2
  · intro now2 setAt2 hle
    have h2 : (c.Get k).2.misses k now2 = true := by
      rw [Cache.misses_Get]
      exact misses_mono c k now now2 hle hmiss
    rw [cacheGet_miss_err _ (c.Get k).2 cl k e now2 setAt2 hafter hcl1 h2 he]
    exact ⟨rfl, rfl⟩

/-- C3 (amended), at a concrete state: the empty cache of `sampleProxy`, the key `badkey`
that the store does not hold. -/
theorem cacheGet_store_failure_transparent_witness :
    (sampleProxy.CacheGet "badkey" 3 4).val = "" ∧
    (sampleProxy.CacheGet "badkey" 3 4).err = some (Error.redis { msg := "redis: nil" }) ∧
    (∀ ev ∈ (sampleProxy.CacheGet "badkey" 3 4).events, ev.isCacheInsert = false) ∧
    ∃ c1, (sampleProxy.CacheGet "badkey" 3 4).cache = some c1 ∧
      (∀ k1, c1.peek k1 = (Cache.New 2).peek k1) ∧
      ((Cache.New 2).peek "badkey" = none → (c1.Get "badkey").1 = none) ∧
      (∀ now2 it, 3 ≤ now2 → c1.peek "badkey" = some it → it.Expired now2 = true) ∧
      ∀ now2 setAt2, 3 ≤ now2 →
        ((sampleProxy.after (sampleProxy.CacheGet "badkey" 3 4)).CacheGet "badkey" now2 setAt2).val
          = "" ∧
        ((sampleProxy.after (sampleProxy.CacheGet "badkey" 3 4)).CacheGet "badkey" now2 setAt2).err
          = some (Error.redis { msg := "redis: nil" }) :=
  cacheGet_store_failure_transparent sampleProxy (Cache.New 2) sampleClient "badkey"
    { msg := "redis: nil" } 3 4 rfl rfl (Or.inl rfl) rfl

/-- C4, as stated, fails: with `CacheTime = 0` the entry inserted by the first `CacheGet` is
expired at once, and the immediately following `CacheGet` of the same key goes to the
backing store again. -/
theorem miss_then_hit_fails_with_zero_ttl :
    zeroTtlProxy.Cache = some (Cache.New 5000) ∧
    (Cache.New 5000).peek "a" = none ∧
    sampleClient.get "a" = Except.ok "1" ∧
    (zeroTtlProxy.CacheGet "a" 0 0).val = "1" ∧
    storeAccesses ((zeroTtlProxy.after (zeroTtlProxy.CacheGet "a" 0 0)).CacheGet "a" 0 0).events
      = 1 := by
  refine ⟨rfl, rfl, rfl, by decide, by decide⟩

/-- C4 (amended). Miss-then-hit: when k is absent from the cache and the Redis client answers v
for k, the first `CacheGet(k)` returns v with exactly one access to the backing store and
leaves an entry for k with value v in the cache; the next `CacheGet(k)`, if it reads the
clock before the TTL of that entry has elapsed since its insertion, returns the same v
with no invocation of `RedisGet` and no access to the backing store. -/
theorem miss_then_hit (p : Proxy) (c : Cache) (cl : Client) (k v : String)
    (now1 setAt1 now2 setAt2 : Int) (hc : p.Cache = some c) (hcl : p.Client = some cl)
    (habs : c.peek k = none) (hv : cl.get k = Except.ok v)
    (hlive : now2 < setAt1 + time.seconds p.Config.CacheTime) :
    (p.CacheGet k now1 setAt1).val = v ∧
    (p.CacheGet k now1 setAt1).err = none ∧
    storeAccesses (p.CacheGet k now1 setAt1).events = 1 ∧
    (∃ c1 it, (p.CacheGet k now1 setAt1).cache = some c1 ∧ (c1.Get k).1 = some it ∧
      it.value = Value.str v) ∧
    ((p.after (p.CacheGet k now1 setAt1)).CacheGet k now2 setAt2).val = v ∧
    ((p.after (p.CacheGet k now1 setAt1)).CacheGet k now2 setAt2).err = none ∧
    ∀ ev ∈ ((p.after (p.CacheGet k now1 setAt1)).CacheGet k now2 setAt2).events,
      ev.isRedisGet = false ∧ ev.isStoreAccess = false := by
  have hmiss := misses_of_absent_or_expired c k now1 (Or.inl habs)
  have h1 := cacheGet_miss_ok p c cl k v now1 setAt1 hc hcl hmiss hv
  have hafter : (p.after (p.CacheGet k now1 setAt1)).Cache =
      some ((c.Get k).2.Set k (Value.str v) (time.seconds p.Config.CacheTime) setAt1) := by
    rw [h1]; rfl
  have hpk := Cache.peek_Set_self (c.Get k).2 k (Value.str v)
    (time.seconds p.Config.CacheTime) setAt1
  have hexp : (Item.mk k (Value.str v) setAt1 (time.seconds p.Config.CacheTime)).Expired now2
      = false := by
    simp only [Item.Expired, decide_eq_false_iff_not]
    omega
  have h2 := cacheGet_hit (p.after (p.CacheGet k now1 setAt1)) _ k v _ now2 setAt2
    hafter hpk hexp rfl
  refine ⟨by rw [h1], by rw [h1], by rw [h1]; rfl,
    ⟨_, Item.mk k (Value.str v) setAt1 (time.seconds p.Config.CacheTime), by rw [h1], ?_, rfl⟩,
    by rw [h2], by rw [h2], ?_⟩
  · rw [Cache.Get_fst]; exact hpk
  · intro ev hev
    rw [h2] at hev
    simp only [List.mem_cons, List.mem_singleton, List.not_mem_nil, or_false] at hev
    rcases hev with rfl | rfl <;> exact ⟨rfl, rfl⟩

/-- C4 (amended), at a concrete state: key `a` on the empty cache of `sampleProxy`, fetched
at instant 0 and asked again one second later. -/
theorem miss_then_hit_witness :
    (sampleProxy.CacheGet "a" 0 0).val = "1" ∧
    (sampleProxy.CacheGet "a" 0 0).err = none ∧
    storeAccesses (sampleProxy.CacheGet "a" 0 0).events = 1 ∧
    (∃ c1 it, (sampleProxy.CacheGet "a" 0 0).cache = some c1 ∧ (c1.Get "a").1 = some it ∧
      it.value = Value.str "1") ∧
    ((sampleProxy.after (sampleProxy.CacheGet "a" 0 0)).CacheGet "a" 1000000000 1000000000).val
      = "1" ∧
    ((sampleProxy.after (sampleProxy.CacheGet "a" 0 0)).CacheGet "a" 1000000000 1000000000).err
      = none ∧
    ∀ ev ∈ ((sampleProxy.after (sampleProxy.CacheGet "a" 0 0)).CacheGet "a"
        1000000000 1000000000).events,
      ev.isRedisGet = false ∧ ev.isStoreAccess = false :=
  miss_then_hit sampleProxy (Cache.New 2) sampleClient "a" "1" 0 0 1000000000 1000000000
    rfl rfl rfl rfl (by decide)

/-- C5, as stated, fails: with `CacheTime = 9223372037` the key `a` is fetched and cached at
instant 0, and a `CacheGet` one nanosecond later, long before `0 + CacheTime` seconds, goes
to the backing store again (the TTL handed to the cache has wrapped to a negative value). -/
theorem expiry_boundary_fails_on_overflow :
    (overflowProxy.CacheGet "a" 0 0).val = "1" ∧
    (overflowProxy.CacheGet "a" 0 0).err = none ∧
    (1 : Int) < 0 + overflowConfig.CacheTime * 1000000000 ∧
    storeAccesses ((overflowProxy.after (overflowProxy.CacheGet "a" 0 0)).CacheGet "a" 1 1).events
      = 1 := by
  refine ⟨by decide, by decide, by decide, by decide⟩

/-- C5 (amended). Expiry boundary: let `CacheTime` seconds fit in a `time.Duration`, let
`CacheGet(k)` have fetched v from the store and cached it at instant t0, and let the entry
of k be untouched since. A `CacheGet(k)` that reads the clock at t with
`t >= t0 + CacheTime s` accesses the backing store; one with `t < t0 + CacheTime s` returns v
from the cache with no invocation of `RedisGet` and no store access; with `CacheTime <= 0`
every call at or after t0 accesses the store. -/
theorem expiry_boundary (p : Proxy) (c : Cache) (cl cl2 : Client) (k v : String)
    (now1 t0 t setAt2 : Int) (c2 : Cache)
    (hc : p.Cache = some c) (hcl : p.Client = some cl)
    (hm : c.peek k = none ∨ ∃ it, c.peek k = some it ∧ it.Expired now1 = true)
    (hv : cl.get k = Except.ok v) (hfit : fitsDuration p.Config.CacheTime)
    (hkept : ∃ c1, (p.CacheGet k now1 t0).cache = some c1 ∧ c2.peek k = c1.peek k) :
    (t ≥ t0 + p.Config.CacheTime * 1000000000 →
      Event.clientGet k ∈
        ((Proxy.mk p.Config (some cl2) (some c2)).CacheGet k t setAt2).events) ∧
    (t < t0 + p.Config.CacheTime * 1000000000 →
      ((Proxy.mk p.Config (some cl2) (some c2)).CacheGet k t setAt2).val = v ∧
      ((Proxy.mk p.Config (some cl2) (some c2)).CacheGet k t setAt2).err = none ∧
      ∀ ev ∈ ((Proxy.mk p.Config (some cl2) (some c2)).CacheGet k t setAt2).events, ev.isRedisGet = false ∧ ev.isStoreAccess = false) ∧
    (p.Config.CacheTime ≤ 0 → t0 ≤ t →
      Event.clientGet k ∈
        ((Proxy.mk p.Config (some cl2) (some c2)).CacheGet k t setAt2).events) := by
  have hmiss := misses_of_absent_or_expired c k now1 hm
  have h1 := cacheGet_miss_ok p c cl k v now1 t0 hc hcl hmiss hv
  have httl : time.seconds p.Config.CacheTime = p.Config.CacheTime * 1000000000 :=
    wrapInt64_of_fits _ hfit.1 hfit.2
  obtain ⟨c1, hc1, hpk⟩ := hkept
  rw [h1] at hc1
  have hc1' : c1 = (c.Get k).2.Set k (Value.str v) (time.seconds p.Config.CacheTime) t0 :=
    (Option.some.inj hc1).symm
  rw [hc1', Cache.peek_Set_self, httl] at hpk
  have hfetch : t ≥ t0 + p.Config.CacheTime * 1000000000 →
      Event.clientGet k ∈
        ((Proxy.mk p.Config (some cl2) (some c2)).CacheGet k t setAt2).events := by
    intro hge
    have hm2 : c2.misses k t = true := by
      unfold Cache.misses
      rw [hpk]
      simp only [Item.Expired, decide_eq_true_eq]
      exact hge
    rw [cacheGet_miss _ c2 k t setAt2 rfl hm2]
    simp only [Proxy.RedisGet]
    cases cl2.get k <;> simp
  refine ⟨hfetch, ?_, ?_⟩
  · intro hlt
    have hexp : (Item.mk k (Value.str v) t0 (p.Config.CacheTime * 1000000000)).Expired t
        = false := by
      simp only [Item.Expired, decide_eq_false_iff_not]
      omega
    rw [cacheGet_hit _ c2 k v _ t setAt2 rfl hpk hexp rfl]
    refine ⟨rfl, rfl, ?_⟩
    intro ev hev
    simp only [List.mem_cons, List.mem_singleton, List.not_mem_nil, or_false] at hev
    rcases hev with rfl | rfl <;> exact ⟨rfl, rfl⟩
  · intro hle ht
    apply hfetch
    have : p.Config.CacheTime * 1000000000 ≤ 0 := by omega
    omega

/-- C5 (amended), at a concrete state: `sampleProxy` (TTL 120 s) caches `a` at instant 0, the
cache is left alone, and the key is asked again at instant 5. -/
theorem expiry_boundary_witness :
    ((5 : Int) ≥ 0 + sampleProxy.Config.CacheTime * 1000000000 →
      Event.clientGet "a" ∈
        ((Proxy.mk sampleProxy.Config (some sampleClient) (some warmCache)).CacheGet "a" 5 5).events) ∧
    ((5 : Int) < 0 + sampleProxy.Config.CacheTime * 1000000000 →
      ((Proxy.mk sampleProxy.Config (some sampleClient) (some warmCache)).CacheGet "a" 5 5).val = "1" ∧
      ((Proxy.mk sampleProxy.Config (some sampleClient) (some warmCache)).CacheGet "a" 5 5).err = none ∧
      ∀ ev ∈ ((Proxy.mk sampleProxy.Config (some sampleClient) (some warmCache)).CacheGet "a" 5 5).events,
        ev.isRedisGet = false ∧ ev.isStoreAccess = false) ∧
    (sampleProxy.Config.CacheTime ≤ 0 → (0 : Int) ≤ 5 →
      Event.clientGet "a" ∈
        ((Proxy.mk sampleProxy.Config (some sampleClient) (some warmCache)).CacheGet "a" 5 5).events) :=
  expiry_boundary sampleProxy (Cache.New 2) sampleClient sampleClient "a" "1" 0 0 5 5 warmCache
    rfl rfl (Or.inl rfl) rfl (by decide) ⟨warmCache, by decide, rfl⟩

/-! ## The HTTP boundary: lemmas and claims -/

theorem serveHTTP_of_empty_key (p : Proxy) (w : ResponseWriter) (r : Request) (now setAt : Int)
    (h : strings.TrimLeft r.path "/" = "") :
    p.ServeHTTP w r now setAt =
      { response := http.Error w (http.StatusText http.StatusBadRequest) http.StatusBadRequest,
        cache := p.Cache, events := [] } := by
  unfold Proxy.ServeHTTP
  simp only [h]
  rfl

theorem serveHTTP_of_key (p : Proxy) (w : ResponseWriter) (r : Request) (now setAt : Int)
    (h : strings.TrimLeft r.path "/" ≠ "") :
    p.ServeHTTP w r now setAt =
      match (p.CacheGet (strings.TrimLeft r.path "/") now setAt).err with
      | some err =>
        { response := io.WriteString w err.Error,
          cache := (p.CacheGet (strings.TrimLeft r.path "/") now setAt).cache,
          events := (p.CacheGet (strings.TrimLeft r.path "/") now setAt).events }
      | none =>
        { response := io.WriteString w (p.CacheGet (strings.TrimLeft r.path "/") now setAt).val,
          cache := (p.CacheGet (strings.TrimLeft r.path "/") now setAt).cache,
          events := (p.CacheGet (strings.TrimLeft r.path "/") now setAt).events } := by
  unfold Proxy.ServeHTTP
  have hlen : ¬ len (strings.TrimLeft r.path "/") < 1 := fun h1 => h ((len_lt_one_iff _).1 h1)
  simp only [hlen, if_false]

theorem cacheGet_events_head (p : Proxy) (c : Cache) (k : String) (now setAt : Int)
    (hc : p.Cache = some c) :
    (p.CacheGet k now setAt).events.head? = some (Event.cacheGet k) := by
  cases hm : c.misses k now with
  | true =>
    rw [cacheGet_miss p c k now setAt hc hm]
    cases (Proxy.RedisGet { Config := p.Config, Client := p.Client, Cache := some (c.Get k).2 } k).err
      <;> rfl
  | false =>
    unfold Cache.misses at hm
    cases hp : c.peek k with
    | none => rw [hp] at hm; cases hm
    | some it =>
      rw [hp] at hm
      cases hv : it.value with
      | str v => rw [cacheGet_hit p c k v it now setAt hc hp hm hv]; rfl
      | other t => rw [cacheGet_hit_other p c k t it now setAt hc hp hm hv]; rfl

/-- C6. Empty key at the HTTP boundary: for every proxy state, initialized or not, and every
request whose path is empty, is `/`, or consists of slashes only (so that the key is
empty), `ServeHTTP` answers status 400 with the body `http.Error` writes for the standard
text of 400 (`Bad Request` and a newline), performs no cache lookup, no cache insert and no
backing-store call, and leaves the cache as it was. -/
theorem serveHTTP_empty_key_bad_request (p : Proxy) (r : Request) (now setAt : Int)
    (h : r.path = "" ∨ r.path = "/" ∨ strings.TrimLeft r.path "/" = "") :
    (p.ServeHTTP ResponseWriter.fresh r now setAt).response.status = some 400 ∧
    (p.ServeHTTP ResponseWriter.fresh r now setAt).response.body
      = http.StatusText http.StatusBadRequest ++ "\n" ∧
    http.StatusText http.StatusBadRequest = "Bad Request" ∧
    (p.ServeHTTP ResponseWriter.fresh r now setAt).events = [] ∧
    (p.ServeHTTP ResponseWriter.fresh r now setAt).cache = p.Cache := by
  have hkey : strings.TrimLeft r.path "/" = "" := by
    rcases h with h | h | h
    · rw [h]; rfl
    · rw [h]; rfl
    · exact h
  rw [serveHTTP_of_empty_key p _ r now setAt hkey]
  exact ⟨rfl, rfl, rfl, rfl, rfl⟩

/-- C6, at a concrete state: the request `GET /` on a proxy with neither cache nor client. -/
theorem serveHTTP_empty_key_bad_request_witness :
    ((Proxy.mk sampleConfig none none).ServeHTTP ResponseWriter.fresh (Request.mk "/")
      0 0).response.status = some 400 ∧
    ((Proxy.mk sampleConfig none none).ServeHTTP ResponseWriter.fresh (Request.mk "/")
      0 0).response.body = http.StatusText http.StatusBadRequest ++ "\n" ∧
    http.StatusText http.StatusBadRequest = "Bad Request" ∧
    ((Proxy.mk sampleConfig none none).ServeHTTP ResponseWriter.fresh (Request.mk "/")
      0 0).events = [] ∧
    ((Proxy.mk sampleConfig none none).ServeHTTP ResponseWriter.fresh (Request.mk "/")
      0 0).cache = (Proxy.mk sampleConfig none none).Cache :=
  serveHTTP_empty_key_bad_request (Proxy.mk sampleConfig none none) (Request.mk "/") 0 0
    (Or.inr (Or.inl rfl))

/-- C7, as stated, fails: `CacheGet` of the empty key on the proxy `main` builds looks the key
up in the cache, fetches it from the backing store, inserts it, and returns the stored
value without error. -/
theorem cacheGet_empty_key_is_resolved :
    (sampleProxy.CacheGet "" 0 0).val = "x" ∧
    (sampleProxy.CacheGet "" 0 0).err = none ∧
    (sampleProxy.CacheGet "" 0 0).events =
      [Event.cacheGet "", Event.redisGet "", Event.clientGet "", Event.logRedis "" "x",
        Event.cacheSet "" "x" 120000000000] := by
  refine ⟨by decide, by decide, by decide⟩

/-- C7 (amended). `CacheGet` does not validate its key (the empty key is rejected by
`ServeHTTP`, before `CacheGet` is called): on a proxy with an initialized cache,
`CacheGet("")` first looks the empty key up in the cache; when it is absent, `RedisGet("")`
is invoked, and if the Redis client answers v for it, the call returns `(v, nil)`. -/
theorem cacheGet_empty_key_like_any_key (p : Proxy) (c : Cache) (now setAt : Int)
    (hc : p.Cache = some c) :
    (p.CacheGet "" now setAt).events.head? = some (Event.cacheGet "") ∧
    (c.peek "" = none → Event.redisGet "" ∈ (p.CacheGet "" now setAt).events) ∧
    (∀ cl v, c.peek "" = none → p.Client = some cl → cl.get "" = Except.ok v →
      (p.CacheGet "" now setAt).val = v ∧ (p.CacheGet "" now setAt).err = none) := by
  refine ⟨cacheGet_events_head p c "" now setAt hc, ?_, ?_⟩
  · intro habs
    have hm := misses_of_absent_or_expired c "" now (Or.inl habs)
    rw [cacheGet_miss p c "" now setAt hc hm]
    cases (Proxy.RedisGet { Config := p.Config, Client := p.Client, Cache := some (c.Get "").2 }
      "").err <;> simp
  · intro cl v habs hcl hv
    have hm := misses_of_absent_or_expired c "" now (Or.inl habs)
    rw [cacheGet_miss_ok p c cl "" v now setAt hc hcl hm hv]
    exact ⟨rfl, rfl⟩

/-- C7 (amended), at a concrete state: the proxy `main` builds, before any request. -/
theorem cacheGet_empty_key_like_any_key_witness :
    (sampleProxy.CacheGet "" 0 0).events.head? = some (Event.cacheGet "") ∧
    ((Cache.New 2).peek "" = none → Event.redisGet "" ∈ (sampleProxy.CacheGet "" 0 0).events) ∧
    (∀ cl v, (Cache.New 2).peek "" = none → sampleProxy.Client = some cl →
      cl.get "" = Except.ok v →
      (sampleProxy.CacheGet "" 0 0).val = v ∧ (sampleProxy.CacheGet "" 0 0).err = none) :=
  cacheGet_empty_key_like_any_key sampleProxy (Cache.New 2) 0 0 rfl

/-- C8, as stated, fails: for the non-empty key `/a` the request path is `//a`; `ServeHTTP`
strips both slashes and resolves the key `a`, so the body is the value of `a` (`1`) and
not what `CacheGet("/a")` returns (`2`). -/
theorem serveHTTP_strips_every_leading_slash :
    ("/a" : String) ≠ "" ∧
    (sampleProxy.CacheGet "/a" 0 0).val = "2" ∧
    (sampleProxy.CacheGet "/a" 0 0).err = none ∧
    (sampleProxy.ServeHTTP ResponseWriter.fresh (Request.mk ("/" ++ "/a")) 0 0).response.body
      = "1" ∧
    (sampleProxy.ServeHTTP ResponseWriter.fresh (Request.mk ("/" ++ "/a")) 0 0).events
      = (sampleProxy.CacheGet "a" 0 0).events := by
  refine ⟨by decide, by decide, by decide, by decide, by decide⟩

/-- C8 (amended). HTTP pass-through: for every non-empty key k that does not begin with a
slash, every proxy state and the request whose path is `/` followed by k, `ServeHTTP`
resolves exactly k through `CacheGet` (same effects, same resulting cache) and answers
status 200 with body exactly the returned string when `CacheGet` succeeds and exactly
the error's message text when it fails. -/
theorem serveHTTP_pass_through (p : Proxy) (k : String) (now setAt : Int)
    (hk : k ≠ "") (hs : k.data.head? ≠ some '/') :
    (p.ServeHTTP ResponseWriter.fresh (Request.mk ("/" ++ k)) now setAt).events
      = (p.CacheGet k now setAt).events ∧
    (p.ServeHTTP ResponseWriter.fresh (Request.mk ("/" ++ k)) now setAt).cache
      = (p.CacheGet k now setAt).cache ∧
    (p.ServeHTTP ResponseWriter.fresh (Request.mk ("/" ++ k)) now setAt).response.status
      = some 200 ∧
    ((p.CacheGet k now setAt).err = none →
      (p.ServeHTTP ResponseWriter.fresh (Request.mk ("/" ++ k)) now setAt).response.body
        = (p.CacheGet k now setAt).val) ∧
    (∀ e, (p.CacheGet k now setAt).err = some e →
      (p.ServeHTTP ResponseWriter.fresh (Request.mk ("/" ++ k)) now setAt).response.body
        = e.Error) := by
  have hkey : strings.TrimLeft (Request.mk ("/" ++ k)).path "/" = k := trimLeft_slash_cons k hs
  have hne : strings.TrimLeft (Request.mk ("/" ++ k)).path "/" ≠ "" := by rw [hkey]; exact hk
  rw [serveHTTP_of_key p _ _ now setAt hne, hkey]
  have hbody : ∀ s : String, (io.WriteString ResponseWriter.fresh s).body = s := by
    intro s
    show "" ++ s = s
    exact String.empty_append s
  cases herr : (p.CacheGet k now setAt).err with
  | none =>
    refine ⟨rfl, rfl, rfl, fun _ => hbody _, ?_⟩
    intro e he
    cases he
  | some e0 =>
    refine ⟨rfl, rfl, rfl, ?_, ?_⟩
    · intro he
      cases he
    · intro e he
      cases he
      exact hbody _

/-- C8 (amended), at a concrete state: `GET /a` on the proxy `main` builds. -/
theorem serveHTTP_pass_through_witness :
    (sampleProxy.ServeHTTP ResponseWriter.fresh (Request.mk ("/" ++ "a")) 0 0).events
      = (sampleProxy.CacheGet "a" 0 0).events ∧
    (sampleProxy.ServeHTTP ResponseWriter.fresh (Request.mk ("/" ++ "a")) 0 0).cache
      = (sampleProxy.CacheGet "a" 0 0).cache ∧
    (sampleProxy.ServeHTTP ResponseWriter.fresh (Request.mk ("/" ++ "a")) 0 0).response.status
      = some 200 ∧
    ((sampleProxy.CacheGet "a" 0 0).err = none →
      (sampleProxy.ServeHTTP ResponseWriter.fresh (Request.mk ("/" ++ "a")) 0 0).response.body
        = (sampleProxy.CacheGet "a" 0 0).val) ∧
    (∀ e, (sampleProxy.CacheGet "a" 0 0).err = some e →
      (sampleProxy.ServeHTTP ResponseWriter.fresh (Request.mk ("/" ++ "a")) 0 0).response.body
        = e.Error) :=
  serveHTTP_pass_through sampleProxy "a" 0 0 (by decide) (by decide)

/-! ## Capacity eviction -/

theorem take_succ_step (M : List Item) (n : Nat) :
    (if ((M.take (n + 1)).length : Int) ≥ ((n + 1 : Nat) : Int) then (M.take (n + 1)).dropLast
      else M.take (n + 1)) = M.take n := by
  by_cases h : n + 1 ≤ M.length
  · have hl : (M.take (n + 1)).length = n + 1 := by
      rw [List.length_take]; omega
    have hc : ((M.take (n + 1)).length : Int) ≥ ((n + 1 : Nat) : Int) := by
      rw [hl]
    rw [if_pos hc, List.dropLast_eq_take, hl, List.take_take]
    simp
  · have hl : M.take (n + 1) = M := List.take_of_length_le (by omega)
    have hc : ¬ ((M.take (n + 1)).length : Int) ≥ ((n + 1 : Nat) : Int) := by
      rw [hl]; omega
    rw [if_neg hc, hl]
    exact (List.take_of_length_le (by omega)).symm

theorem after_config (p : Proxy) (out : Outcome) : (p.after out).Config = p.Config := rfl

theorem after_client (p : Proxy) (out : Outcome) : (p.after out).Client = p.Client := rfl

theorem resolveAll_invariant (cfg : Config) (cl : Client) (n : Nat) (rest : List Call) :
    ∀ (done : List Call) (p : Proxy), p.Config = cfg → p.Client = some cl →
      p.Cache = some (Cache.mk ((n + 1 : Nat) : Int)
        (((done.reverse).map (entryOf cfg cl)).take (n + 1))) →
      ((done ++ rest).map Call.key).Nodup →
      (∀ c ∈ rest, ∃ v, cl.get c.key = Except.ok v) →
      (p.resolveAll rest).Cache = some (Cache.mk ((n + 1 : Nat) : Int)
        ((((done ++ rest).reverse).map (entryOf cfg cl)).take (n + 1))) := by
  induction rest with
  | nil =>
    intro done p _ _ hcache _ _
    simpa [Proxy.resolveAll] using hcache
  | cons c rest ih =>
    intro done p hcfg hcl hcache hnd hstore
    obtain ⟨v, hv⟩ := hstore c (List.mem_cons_self _ _)
    have hnd1 : ((done ++ [c] ++ rest).map Call.key).Nodup := by
      simpa [List.append_assoc] using hnd
    have hfresh : ∀ d ∈ done, d.key ≠ c.key := by
      intro d hd heq
      rw [List.map_append, List.nodup_append] at hnd
      exact hnd.2.2 (List.mem_map_of_mem Call.key hd)
        (by rw [heq]; exact List.mem_map_of_mem Call.key (List.mem_cons_self _ _))
    have habs : Cache.peek (Cache.mk ((n + 1 : Nat) : Int)
        (((done.reverse).map (entryOf cfg cl)).take (n + 1))) c.key = none := by
      unfold Cache.peek
      rw [find_none_iff]
      intro x hx
      have hx1 := List.mem_of_mem_take hx
      rw [List.mem_map] at hx1
      obtain ⟨d, hd, rfl⟩ := hx1
      exact hfresh d (List.mem_reverse.1 hd)
    have hm := misses_of_absent_or_expired _ c.key c.now (Or.inl habs)
    have hout := cacheGet_miss_ok p _ cl c.key v c.now c.setAt hcache hcl hm hv
    have hentry : entryOf cfg cl c =
        Item.mk c.key (Value.str v) c.setAt (time.seconds p.Config.CacheTime) := by
      unfold entryOf
      rw [hv, hcfg]
    have hnext : (p.after (p.CacheGet c.key c.now c.setAt)).Cache =
        some (Cache.mk ((n + 1 : Nat) : Int)
          ((((done ++ [c]).reverse).map (entryOf cfg cl)).take (n + 1))) := by
      rw [hout]
      show some (Cache.Set _ _ _ _ _) = _
      rw [Cache.Get_absent _ _ habs]
      unfold Cache.Set
      rw [habs]
      simp only [List.reverse_append, List.reverse_cons, List.reverse_nil, List.nil_append,
        List.singleton_append, List.map_cons, List.take_succ_cons]
      rw [take_succ_step, hentry]
    have := ih (done ++ [c]) (p.after (p.CacheGet c.key c.now c.setAt))
      (by rw [after_config, hcfg]) (by rw [after_client, hcl]) hnext hnd1
      (fun d hd => hstore d (List.mem_cons_of_mem _ hd))
    simpa [Proxy.resolveAll, List.append_assoc] using this

/-- C9. Capacity eviction: for every capacity N >= 1 and every sequence of N+1 calls of
`CacheGet` for distinct keys that the backing store all holds, made in order on the proxy
`main` builds (empty cache of capacity N), the cache ends with at most N entries; a
lookup for the first key finds nothing, and a lookup for each of the other N keys finds
its entry (the value the store holds, inserted by its call). -/
theorem capacity_eviction (cfg : Config) (cl : Client) (N : Nat) (first : Call)
    (others : List Call) (hN : 1 ≤ N) (hsize : cfg.CacheSize = (N : Int))
    (hlen : (first :: others).length = N + 1)
    (hnd : ((first :: others).map Call.key).Nodup)
    (hstore : ∀ c ∈ first :: others, ∃ v, cl.get c.key = Except.ok v) :
    ∃ c1, ((Proxy.start cfg cl).resolveAll (first :: others)).Cache = some c1 ∧
      c1.items.length ≤ N ∧
      (c1.Get first.key).1 = none ∧
      ∀ c ∈ others, ∀ v, cl.get c.key = Except.ok v →
        (c1.Get c.key).1 = some { key := c.key, value := Value.str v, insertedAt := c.setAt,
                                  ttl := time.seconds cfg.CacheTime } := by
  obtain ⟨n, rfl⟩ : ∃ n, N = n + 1 := ⟨N - 1, by omega⟩
  have hstart : (Proxy.start cfg cl).Cache = some (Cache.mk ((n + 1 : Nat) : Int)
      (((([] : List Call).reverse).map (entryOf cfg cl)).take (n + 1))) := by
    show some (Cache.New cfg.CacheSize) = _
    rw [hsize]
    rfl
  have hfin := resolveAll_invariant cfg cl n (first :: others) [] (Proxy.start cfg cl) rfl rfl
    hstart (by simpa using hnd) hstore
  have hol : others.length = n + 1 := by
    simp only [List.length_cons] at hlen
    omega
  have hitems : ((([] ++ (first :: others)).reverse).map (entryOf cfg cl)).take (n + 1) =
      (others.reverse).map (entryOf cfg cl) := by
    simp only [List.nil_append, List.reverse_cons, List.map_append, List.map_cons, List.map_nil]
    rw [List.take_append_of_le_length (by simp [hol])]
    exact List.take_of_length_le (by simp [hol])
  rw [hitems] at hfin
  have hnd2 : (others.map Call.key).Nodup := (List.nodup_cons.1 hnd).2
  have hfirst : first.key ∉ others.map Call.key := (List.nodup_cons.1 hnd).1
  refine ⟨_, hfin, ?_, ?_, ?_⟩
  · simp [hol]
  · rw [Cache.Get_fst]
    unfold Cache.peek
    rw [find_none_iff]
    intro x hx
    rw [List.mem_map] at hx
    obtain ⟨d, hd, rfl⟩ := hx
    intro heq
    exact hfirst (by rw [← heq]; exact List.mem_map_of_mem Call.key (List.mem_reverse.1 hd))
  · intro c hc v hv
    rw [Cache.Get_fst]
    unfold Cache.peek
    have hmem : entryOf cfg cl c ∈ (others.reverse).map (entryOf cfg cl) :=
      List.mem_map_of_mem _ (List.mem_reverse.2 hc)
    cases hfind : List.find? (fun it => it.key == c.key) ((others.reverse).map (entryOf cfg cl)) with
    | none =>
      rw [find_none_iff] at hfind
      exact absurd rfl (hfind _ hmem)
    | some it =>
      have hkey := find_key_eq _ _ _ hfind
      have hin := find_mem _ _ _ hfind
      rw [List.mem_map] at hin
      obtain ⟨d, hd, rfl⟩ := hin
      have hdc : d = c :=
        List.inj_on_of_nodup_map hnd2 (List.mem_reverse.1 hd) hc hkey
      subst hdc
      show some (entryOf cfg cl d) = _
      unfold entryOf
      rw [hv]

/-- C9, at the spec's concrete scenario: capacity 2, the keys `a`, `b`, `c` resolved in
order. -/
theorem capacity_eviction_witness :
    ∃ c1, ((Proxy.start sampleConfig sampleClient).resolveAll
        (callAt "a" 1 :: [callAt "b" 2, callAt "c" 3])).Cache = some c1 ∧
      c1.items.length ≤ 2 ∧
      (c1.Get (callAt "a" 1).key).1 = none ∧
      ∀ c ∈ [callAt "b" 2, callAt "c" 3], ∀ v, sampleClient.get c.key = Except.ok v →
        (c1.Get c.key).1 = some { key := c.key, value := Value.str v, insertedAt := c.setAt,
                                  ttl := time.seconds sampleConfig.CacheTime } :=
  capacity_eviction sampleConfig sampleClient 2 (callAt "a" 1) [callAt "b" 2, callAt "c" 3]
    (by decide) rfl rfl (by decide)
    (by
      intro c hc
      simp only [List.mem_cons, List.mem_singleton, List.not_mem_nil, or_false] at hc
      rcases hc with rfl | rfl | rfl
      · exact ⟨"1", rfl⟩
      · exact ⟨"2", rfl⟩
      · exact ⟨"3", rfl⟩)

/-! ## The decode error -/

theorem redisGet_err_cache (p : Proxy) (x : Option Cache) (k : String) :
    (Proxy.RedisGet { Config := p.Config, Client := p.Client, Cache := x } k).err
      = (p.RedisGet k).err := by
  cases hcl : p.Client with
  | none => simp only [Proxy.RedisGet, hcl]
  | some cl =>
    simp only [Proxy.RedisGet, hcl]
    cases cl.get k <;> rfl

theorem redisGet_err_not_decode (p : Proxy) (k : String) (e : Error)
    (h : (p.RedisGet k).err = some e) : ¬ isDecodeError e := by
  rintro ⟨t, rfl⟩
  unfold Proxy.RedisGet at h
  cases hcl : p.Client with
  | none =>
    rw [hcl] at h
    simp only [fmt.Errorf, Option.some.injEq, Error.errorf.injEq] at h
    have := congrArg String.data h
    simp at this
  | some cl =>
    rw [hcl] at h
    dsimp only at h
    cases hg : cl.get k with
    | error e0 =>
      rw [hg] at h
      simp at h
    | ok v =>
      rw [hg] at h
      simp at h

theorem cacheGet_allStrings (p : Proxy) (c c1 : Cache) (k : String) (now setAt : Int)
    (hc : p.Cache = some c) (hall : c.allStrings)
    (hout : (p.CacheGet k now setAt).cache = some c1) : c1.allStrings := by
  have hget : (c.Get k).2.allStrings := fun it hit => hall it (Cache.mem_Get c k it hit)
  cases hm : c.misses k now with
  | true =>
    rw [cacheGet_miss p c k now setAt hc hm] at hout
    cases herr : (Proxy.RedisGet (Proxy.mk p.Config p.Client (some (c.Get k).2)) k).err with
    | some e =>
      rw [herr] at hout
      cases hout
      exact hget
    | none =>
      rw [herr] at hout
      cases hout
      intro it hit
      rcases Cache.mem_Set _ _ _ _ _ it hit with rfl | h
      · exact ⟨_, rfl⟩
      · exact hget it h
  | false =>
    unfold Cache.misses at hm
    cases hp : c.peek k with
    | none => rw [hp] at hm; cases hm
    | some it =>
      rw [hp] at hm
      cases hv : it.value with
      | str v =>
        rw [cacheGet_hit p c k v it now setAt hc hp hm hv] at hout
        cases hout
        exact hget
      | other t =>
        rw [cacheGet_hit_other p c k t it now setAt hc hp hm hv] at hout
        cases hout
        exact hget

theorem reachable_allStrings (c : Cache) (h : Reachable c) : c.allStrings := by
  induction h with
  | empty n =>
    intro it hit
    cases hit
  | step c c1 p k now setAt _ hc hout ih =>
    exact cacheGet_allStrings p c c1 k now setAt hc ih hout

theorem cacheGet_err_of_allStrings (p : Proxy) (c : Cache) (k : String) (now setAt : Int)
    (e : Error) (hc : p.Cache = some c) (hall : c.allStrings)
    (herr : (p.CacheGet k now setAt).err = some e) : (p.RedisGet k).err = some e := by
  cases hm : c.misses k now with
  | true =>
    rw [cacheGet_miss p c k now setAt hc hm] at herr
    rw [← redisGet_err_cache p (some (c.Get k).2) k]
    cases hr : (Proxy.RedisGet (Proxy.mk p.Config p.Client (some (c.Get k).2)) k).err with
    | some e0 =>
      rw [hr] at herr
      exact herr
    | none =>
      rw [hr] at herr
      cases herr
  | false =>
    unfold Cache.misses at hm
    cases hp : c.peek k with
    | none => rw [hp] at hm; cases hm
    | some it =>
      rw [hp] at hm
      obtain ⟨v, hv⟩ := hall it (find_mem _ _ _ hp)
      rw [cacheGet_hit p c k v it now setAt hc hp hm hv] at herr
      cases herr

/-- C10. The decode error is unreachable: in every cache state reachable from an empty cache
by calls of `CacheGet`, every cached value is a string; on a proxy whose cache is nil or
in such a state, an error returned by `CacheGet` is never the "could not decode type"
error, and it is either "proxy not initialized" or the error returned by `RedisGet`. -/
theorem decode_error_unreachable (p : Proxy) (k : String) (now setAt : Int)
    (hreach : ∀ c, p.Cache = some c → Reachable c) :
    (∀ c, p.Cache = some c → ∀ it ∈ c.items, ∃ s, it.value = Value.str s) ∧
    ∀ e, (p.CacheGet k now setAt).err = some e →
      ¬ isDecodeError e ∧
      (e = Error.errorf "proxy not initialized" ∨ (p.RedisGet k).err = some e) := by
  refine ⟨fun c hc => reachable_allStrings c (hreach c hc), ?_⟩
  intro e herr
  cases hc : p.Cache with
  | none =>
    rw [cacheGet_uninit p k now setAt hc] at herr
    cases herr
    refine ⟨?_, Or.inl rfl⟩
    rintro ⟨t, ht⟩
    simp only [Error.errorf.injEq] at ht
    have := congrArg String.data ht
    simp at this
  | some c =>
    have h := cacheGet_err_of_allStrings p c k now setAt e hc
      (reachable_allStrings c (hreach c hc)) herr
    exact ⟨redisGet_err_not_decode p k e h, Or.inr h⟩

/-- C10, at a concrete state: the cache of `sampleProxy` after it resolved the key `a`. -/
theorem decode_error_unreachable_witness :
    (∀ c, (sampleProxy.after (sampleProxy.CacheGet "a" 0 0)).Cache = some c →
      ∀ it ∈ c.items, ∃ s, it.value = Value.str s) ∧
    ∀ e, ((sampleProxy.after (sampleProxy.CacheGet "a" 0 0)).CacheGet "badkey" 1 1).err = some e →
      ¬ isDecodeError e ∧
      (e = Error.errorf "proxy not initialized" ∨
        ((sampleProxy.after (sampleProxy.CacheGet "a" 0 0)).RedisGet "badkey").err = some e) :=
  decode_error_unreachable (sampleProxy.after (sampleProxy.CacheGet "a" 0 0)) "badkey" 1 1
    (fun c hc => Reachable.step (Cache.New 2) c sampleProxy "a" 0 0 (Reachable.empty 2) rfl hc)

end RedisProxy
